import Mathlib

/-!
Verification of the CamScanner PDF watermark remover
(src/xsukax_CS_Watermark_Remover.py) against its specification.

Content streams are byte strings decoded with the latin-1 codec
(one byte per character), so we model them as lists of characters
(`Str`).  The regex substitutions of `_clean_content_references` are
modelled pattern by pattern, reproducing Python's `re` semantics for
the exact patterns occurring in the source (leftmost scanning,
greedy/lazy quantifier backtracking, word boundaries).  The drivers
use a fuel parameter equal to the input length so that every
definition is executable by kernel reduction.
-/

open scoped List

namespace XsukaxRemover

abbrev Str := List Char

/-- Python re `\s` restricted to the latin-1 range (the decoded text
only contains characters ≤ 0xFF): TAB LF VT FF CR, SPACE, FS GS RS US,
NEL (0x85) and NBSP (0xA0).  `str.isspace`/`str.strip` use the same
set on this range. -/
def isWs (c : Char) : Bool :=
  let n := c.toNat
  (9 ≤ n && n ≤ 13) || n == 32 || (28 ≤ n && n ≤ 31) || n == 133 || n == 160

/-- Python re `\d` on the latin-1 range: the ASCII digits. -/
def isDigitCh (c : Char) : Bool :=
  let n := c.toNat
  48 ≤ n && n ≤ 57

/-- Python re `\w` (for word boundaries) on the latin-1 range:
ASCII alphanumerics, underscore, and the latin-1 letters
ª µ º À–Ö Ø–ö ø–ÿ. -/
def isWord (c : Char) : Bool :=
  let n := c.toNat
  (48 ≤ n && n ≤ 57) || (65 ≤ n && n ≤ 90) || (97 ≤ n && n ≤ 122) ||
  n == 95 || n == 170 || n == 181 || n == 186 ||
  (192 ≤ n && n ≤ 214) || (216 ≤ n && n ≤ 246) || (248 ≤ n && n ≤ 255)

/-- Character class `[\d\.\-\s]` of patterns 3 and 5. -/
def isCmCls (c : Char) : Bool :=
  isDigitCh c || c == '.' || c == '-' || isWs c

/-- prefix test: `strStarts p s` is true when `p` is a prefix of `s` (Python: `s.startswith(p)`). -/
def strStarts : Str → Str → Bool
  | [], _ => true
  | _ :: _, [] => false
  | a :: as, b :: bs => a == b && strStarts as bs

/-- Length of the maximal leading run of characters satisfying `p`. -/
def runLen (p : Char → Bool) : Str → Nat
  | [] => 0
  | c :: cs => if p c then runLen p cs + 1 else 0

/-- Length of the maximal leading whitespace run. -/
def wsRun (s : Str) : Nat := runLen isWs s

/-- Match `/<key>\s+Do` at the head of `cs`; returns the number of
characters consumed.  The inner `\s+` is greedy; since `D` is not
whitespace, it deterministically consumes the maximal whitespace run. -/
def keyDoAt (key : Str) (cs : Str) : Option Nat :=
  if strStarts ('/' :: key) cs then
    let r := List.drop (key.length + 1) cs
    let w := wsRun r
    if 1 ≤ w && strStarts ('D' :: 'o' :: []) (List.drop w r) then
      some (key.length + 1 + w + 2)
    else none
  else none

/-- Pattern 1: `/<key>\s+Do\s*` (the trailing `\s*` greedily takes the
following whitespace run). -/
def matchP1 (key : Str) (cs : Str) : Option Nat :=
  match keyDoAt key cs with
  | some d => some (d + wsRun (List.drop d cs))
  | none => none

/-- Position (1-based count of consumed characters, including the `Q`)
of the first `Q` in `s`, if any: the lazy `[^Q]*?Q` tail of pattern 2. -/
def findQ : Str → Option Nat
  | [] => none
  | c :: cs => if c == 'Q' then some 1 else (findQ cs).map (· + 1)

/-- Lazy scan of pattern 2 after `q\s`: expand `[^Q]*?` one character
at a time (never across a `Q`) until `/<key>\s+Do` matches and a `Q`
follows it; returns characters consumed from the scan start through
that `Q`.  This reproduces the backtracking of
`q\s+[^Q]*?/<key>\s+Do[^Q]*?Q`: shrinking the leading `\s+` only
re-offers whitespace positions, where `/` cannot match. -/
def p2Scan (key : Str) : Str → Option Nat
  | [] => none
  | c :: cs =>
    match keyDoAt key (c :: cs) with
    | some d =>
      match findQ (List.drop d (c :: cs)) with
      | some m => some (d + m)
      | none => if c == 'Q' then none else (p2Scan key cs).map (· + 1)
    | none => if c == 'Q' then none else (p2Scan key cs).map (· + 1)

/-- Pattern 2: `q\s+[^Q]*?/<key>\s+Do[^Q]*?Q`. -/
def matchP2 (key : Str) (cs : Str) : Option Nat :=
  match cs with
  | c :: c2 :: rest =>
    if c == 'q' && isWs c2 then (p2Scan key rest).map (· + 2) else none
  | _ => none

/-- Pattern 3: `[\d\.\-\s]+cm\s+/<key>\s+Do`.  The greedy class run is
deterministic because `c` is not in the class. -/
def matchP3 (key : Str) (cs : Str) : Option Nat :=
  let r := runLen isCmCls cs
  if 1 ≤ r && strStarts ('c' :: 'm' :: []) (List.drop r cs) then
    let t := List.drop (r + 2) cs
    let w := wsRun t
    if 1 ≤ w then
      match keyDoAt key (List.drop w t) with
      | some d => some (r + 2 + w + d)
      | none => none
    else none
  else none

/-- Pattern 5: `([\d\.\-\s]+){6}cm\s+/<key>\s+Do`; with backtracking
the six greedy class groups jointly consume exactly the maximal class
run, which must have length at least 6. -/
def matchP5 (key : Str) (cs : Str) : Option Nat :=
  let r := runLen isCmCls cs
  if 6 ≤ r && strStarts ('c' :: 'm' :: []) (List.drop r cs) then
    let t := List.drop (r + 2) cs
    let w := wsRun t
    if 1 ≤ w then
      match keyDoAt key (List.drop w t) with
      | some d => some (r + 2 + w + d)
      | none => none
    else none
  else none

/-- Pattern 4: `/<key>\b`.  The word boundary compares the last
character of `/<key>` with the following character (end of input
counts as a non-word position). -/
def matchP4 (key : Str) (cs : Str) : Option Nat :=
  if strStarts ('/' :: key) cs then
    let lastC := key.getLastD '/'
    match List.drop (key.length + 1) cs with
    | [] => if isWord lastC then some (key.length + 1) else none
    | r :: _ =>
      if isWord lastC != isWord r then some (key.length + 1) else none
  else none

/-- the word-boundary test of pattern 4 after `/<key>`, as a predicate
on the remaining text (end of input is a non-word position). -/
def bdryOkB (key : Str) (rest : Str) : Bool :=
  match rest with
  | [] => isWord (key.getLastD '/')
  | r :: _ => isWord (key.getLastD '/') != isWord r

/-- Cleanup pattern `q\s+Q`. -/
def matchQQ (cs : Str) : Option Nat :=
  match cs with
  | c :: rest =>
    if c = 'q' then
      (if 1 ≤ wsRun rest && strStarts ('Q' :: []) (List.drop (wsRun rest) rest) then
        some (wsRun rest + 2)
      else none)
    else none
  | [] => none

/-- Inner loop for `\n\s*\n\s*\n`: try the second `\s*` length `k`
(greedy, descending) looking for a following newline. -/
def nlInner (t : Str) : Nat → Option Nat
  | 0 => if strStarts ('\n' :: []) t then some 0 else none
  | k + 1 =>
    if strStarts ('\n' :: []) (List.drop (k + 1) t) then some (k + 1)
    else nlInner t k

/-- Attempt at first-run length `k`: the tail after the `k` whitespace
characters must start with a newline, and the inner loop must then
find the second newline. -/
def nlAt (t : Str) (k : Nat) : Option Nat :=
  match List.drop k t with
  | '\n' :: t2 => nlInner t2 (wsRun t2)
  | _ => none

/-- Outer loop for `\n\s*\n\s*\n`: try the first `\s*` length `k`
(greedy, descending); on failure (no newline there, or the inner loop
fails) backtrack to a shorter run. -/
def nlOuter (t : Str) : Nat → Option (Nat × Nat)
  | 0 => (nlAt t 0).map (fun k2 => (0, k2))
  | k + 1 =>
    match nlAt t (k + 1) with
    | some k2 => some (k + 1, k2)
    | none => nlOuter t k

/-- Cleanup pattern `\n\s*\n\s*\n` (replaced by two newlines); returns
the lengths of the two inner whitespace runs.  Total match length is
`k1 + k2 + 3`. -/
def matchNL (cs : Str) : Option (Nat × Nat) :=
  match cs with
  | c :: t => if c = '\n' then nlOuter t (wsRun t) else none
  | [] => none

/-- Fueled `re.sub(pattern, '', ·)` driver: scan left to right, delete
each leftmost non-overlapping match and continue scanning after it
(Python does not rescan replaced text). -/
def subDelF (m : Str → Option Nat) : Nat → Str → Str
  | 0, _ => []
  | _ + 1, [] => []
  | f + 1, c :: cs =>
    match m (c :: cs) with
    | some (n + 1) => subDelF m f (List.drop n cs)
    | some 0 => c :: subDelF m f cs
    | none => c :: subDelF m f cs

/-- the substitution `re.sub(pattern, '', s)` for our matchers (each match consumes at
least one character, so fuel `s.length` always suffices). -/
def subDel (m : Str → Option Nat) (s : Str) : Str := subDelF m s.length s

/-- Fueled driver for `re.sub(r'\n\s*\n\s*\n', '\n\n', ·)`. -/
def subNLF : Nat → Str → Str
  | 0, _ => []
  | _ + 1, [] => []
  | f + 1, c :: cs =>
    match matchNL (c :: cs) with
    | some (k1, k2) => '\n' :: '\n' :: subNLF f (List.drop (k1 + k2 + 2) cs)
    | none => c :: subNLF f cs

/-- the substitution `re.sub` collapsing three newlines to two. -/
def subNL (s : Str) : Str := subNLF s.length s

/-- The five per-identifier substitutions of
`_clean_content_references`, in source order. -/
def applyKey (s : Str) (key : Str) : Str :=
  subDel (matchP5 key)
    (subDel (matchP4 key)
      (subDel (matchP3 key)
        (subDel (matchP2 key)
          (subDel (matchP1 key) s))))

/-- All substitutions of `_clean_content_references` on the decoded
stream text: the five patterns for each removed key (in order), then
the empty-bracket collapse `q\s+Q` and the blank-line collapse. -/
def cleanData (keys : List Str) (s : Str) : Str :=
  subNL (subDel matchQQ (List.foldl applyKey s keys))

/-- the body of `_clean_content_references` on one stream: the new text is written
back only when its length changed (`if len(data) != original_length`). -/
def cleanContentStream (keys : List Str) (s : Str) : Str :=
  let d := cleanData keys s
  if d.length = s.length then s else d

/-- Config.WATERMARK_KEYWORDS, verbatim from the source. -/
def WATERMARK_KEYWORDS : List Str :=
  [("camscanner").toList, ("CamScanner").toList, ("CAMSCANNER").toList,
   ("intsig").toList, ("Intsig").toList, ("INTSIG").toList,
   ("www.camscanner.com").toList, ("camscanner.com").toList,
   ("intsig.net").toList, ("intsig.com").toList,
   ("Scanned with CamScanner").toList]

/-- Python `str.lower()`; the ASCII case mapping is what matters for
the (all-ASCII) keyword list. -/
def lowerStr (s : Str) : Str := s.map Char.toLower

/-- substring test: `strHas n h` is true when `n` occurs as a contiguous substring of `h`
(Python `n in h`). -/
def strHas (n : Str) : Str → Bool
  | [] => strStarts n []
  | c :: cs => strStarts n (c :: cs) || strHas n cs

/-- the matcher `contains_watermark(text)` for a present string: falsy (empty)
input gives `False`, otherwise case-insensitive substring match
against the keyword list. -/
def contains_watermark (s : Str) : Bool :=
  if s.isEmpty then false
  else WATERMARK_KEYWORDS.any (fun kw => strHas (lowerStr kw) (lowerStr s))

/-- the matcher `contains_watermark` on possibly absent input (`None` is falsy). -/
def contains_watermarkOpt : Option Str → Bool
  | none => false
  | some s => contains_watermark s

/-- Python `line.strip()`: remove leading and trailing whitespace. -/
def stripLine (l : Str) : Str :=
  ((l.dropWhile (fun c => isWs c)).reverse.dropWhile (fun c => isWs c)).reverse

/-- Python `data.split('\n')`. -/
def splitNl (s : Str) : List Str := s.splitOn '\n'

/-- Python `'\n'.join(lines)`. -/
def joinNl (ls : List Str) : Str := List.intercalate ('\n' :: []) ls

/-- The inner `while` of `remove_text_watermarks`: after a `BT` line,
collect lines up to and including the first line stripping to `ET`
(or to the end of the stream when there is none); returns the
collected block tail and the remaining lines. -/
def collectBlock : List Str → List Str × List Str
  | [] => ([], [])
  | l :: ls =>
    if stripLine l = ("ET").toList then ([l], ls)
    else ((l :: (collectBlock ls).1), (collectBlock ls).2)

/-- Fueled line scanner of `remove_text_watermarks`: build the
`cleaned` line list, dropping every `BT ... ET` block whose joined
text matches the watermark rule and counting the drops into the
accumulator `n` (which the source shares across all streams). -/
def textCleanF : Nat → List Str → Nat → List Str × Nat
  | 0, _, n => ([], n)
  | _ + 1, [], n => ([], n)
  | f + 1, l :: ls, n =>
    if stripLine l = ("BT").toList then
      let b := collectBlock ls
      if contains_watermark (joinNl (l :: b.1)) then textCleanF f b.2 (n + 1)
      else
        let p := textCleanF f b.2 n
        ((l :: b.1) ++ p.1, p.2)
    else
      let p := textCleanF f ls n
      (l :: p.1, p.2)

/-- Line scanner of `remove_text_watermarks` (fuel `lines.length`
always suffices: each step consumes at least one line). -/
def textClean (lines : List Str) (n : Nat) : List Str × Nat :=
  textCleanF lines.length lines n

/-- One stream of the text pass: scan the lines with the shared
counter; the stream is written back (as the joined cleaned lines)
exactly when the shared counter is positive afterwards. -/
def textPassStream (s : Str) (n : Nat) : Str × Nat :=
  let p := textClean (splitNl s) n
  (if 0 < p.2 then joinNl p.1 else s, p.2)

/-- The text pass over the document's content streams in order,
threading the document-global `removed` counter. -/
def textPass : List Str → Nat → List Str × Nat
  | [], n => ([], n)
  | s :: ss, n =>
    let p := textPassStream s n
    let q := textPass ss p.2
    (p.1 :: q.1, q.2)

/-- the pass `remove_text_watermarks`: counter starts at 0 for the document. -/
def remove_text_watermarks (streams : List Str) : List Str × Nat :=
  textPass streams 0

/-- The pikepdf name `/Image` (value of `Name.Image`). -/
def imageName : Str := ("Image").toList

/-- An XObject resource as the image pass reads it: `Subtype`, and
`Width`/`Height` when present and integer-convertible (a failed
conversion makes the source skip the object). -/
structure XObj where
  subtype : Option Str
  width : Option Int
  height : Option Int
deriving DecidableEq

/-- Config.MAIN_CONTENT_THRESHOLD. -/
def MAIN_CONTENT_THRESHOLD : Int := 1000

/-- The removal-candidate test of `remove_watermark_images`: the
object is skipped unless its Subtype is `/Image` and both dimensions
read as integers; it is a candidate when it is not main content,
i.e. not (width ≥ 1000 and height ≥ 1000). -/
def isCandidate (x : XObj) : Bool :=
  decide (x.subtype = some imageName) &&
  (match x.width, x.height with
   | some w, some h =>
     !(decide (MAIN_CONTENT_THRESHOLD ≤ w) && decide (MAIN_CONTENT_THRESHOLD ≤ h))
   | _, _ => false)

/-- A page as the image pass sees it: the XObject subtable of the
Resource Table (`none` when the page has no Resources or no XObject
entry, making the pass skip it) and the content streams (already
normalized to a list, decoded latin-1). -/
structure Page where
  xobjects : Option (List (Str × XObj))
  contents : List Str
deriving DecidableEq

/-- The `to_remove` list of one page: keys of all removal candidates,
in resource-table order. -/
def candidateKeys (res : List (Str × XObj)) : List Str :=
  (res.filter (fun e => isCandidate e.2)).map (fun e => e.1)

/-- One page of `remove_watermark_images`: compute the candidate set,
clean the content streams with the full set (only when it is
non-empty, per `if to_remove:`), then delete the candidates from the
XObject table by key. -/
def imagePassPage (p : Page) : Page :=
  match p.xobjects with
  | none => p
  | some res =>
    let keys := candidateKeys res
    { xobjects := some (res.filter (fun e => !(decide (e.1 ∈ keys)))),
      contents :=
        if keys.isEmpty then p.contents
        else p.contents.map (fun s => cleanContentStream keys s) }

/-- One page's two-stage rendering in `export_to_png`/`export_to_tif`:
the matrix render, and on its failure the default-settings retry
(`none` = the corresponding `get_pixmap` call raised). -/
structure RenderAttempt (Img : Type) where
  first : Option Img
  second : Option Img
deriving DecidableEq

/-- Outcome for one page: the first successful attempt, else skip. -/
def renderPage {Img : Type} (a : RenderAttempt Img) : Option Img :=
  match a.first with
  | some i => some i
  | none => a.second

/-- Successfully rendered pages, in page order. -/
def renderedImages {Img : Type} (ats : List (RenderAttempt Img)) : List Img :=
  ats.filterMap renderPage

/-- the export `export_to_tif`: render each page (with retry), accumulate the
successes in order; with no images return `None` (failure), otherwise
attempt the multi-page save, which returns `None` on an encoder/write
error (`saveOk = false`) and the encoded page list on success.
`process` turns a `None` result into run failure. -/
def export_to_tif {Img : Type} (ats : List (RenderAttempt Img)) (saveOk : Bool) :
    Option (List Img) :=
  match renderedImages ats with
  | [] => none
  | i :: is => if saveOk then some (i :: is) else none

/-- occurrence: `n` is a contiguous substring of `s`. -/
def Occurs (n s : Str) : Prop := ∃ pre post, s = pre ++ (n ++ post)

/-- an occurrence of `/<key>` followed by whitespace and `Do`
somewhere in `s` — a surviving reference/invocation of `key`. -/
def HasKeyDo (key s : Str) : Prop :=
  ∃ pre ws post, s = pre ++ '/' :: (key ++ ws ++ ('D' :: 'o' :: post)) ∧
    ws ≠ [] ∧ ∀ c ∈ ws, isWs c = true

/-- predicate: `m` matches at no position of `s`. -/
def NoMatch {α : Type} (m : Str → Option α) (s : Str) : Prop :=
  ∀ i, m (List.drop i s) = none

/-- decidable companion of `NoMatch`: `hasPat m s` is true when `m`
matches at some position of `s`. -/
def hasPat {α : Type} (m : Str → Option α) : Str → Bool
  | [] => (m []).isSome
  | c :: cs => (m (c :: cs)).isSome || hasPat m cs

/-- none of the rewriter's substitution patterns (the five
per-identifier patterns for any identifier in `keys`, the empty
bracket `q\s+Q` and the triple blank line) matches anywhere in `s`. -/
def NoPatternMatch (keys : List Str) (s : Str) : Prop :=
  (∀ k ∈ keys, NoMatch (matchP1 k) s ∧ NoMatch (matchP2 k) s ∧ NoMatch (matchP3 k) s ∧
    NoMatch (matchP4 k) s ∧ NoMatch (matchP5 k) s) ∧
  NoMatch matchQQ s ∧ NoMatch matchNL s

/-! ### Basic lemmas about the string primitives -/

theorem strStarts_iff (p s : Str) : strStarts p s = true ↔ ∃ t, s = p ++ t := by
  induction p generalizing s with
  | nil => simp [strStarts]
  | cons a as ih =>
    cases s with
    | nil =>
      simp [strStarts]
    | cons b bs =>
      simp only [strStarts, Bool.and_eq_true, beq_iff_eq, ih, List.cons_append,
        List.cons.injEq]
      constructor
      · rintro ⟨rfl, t, rfl⟩; exact ⟨t, rfl, rfl⟩
      · rintro ⟨t, rfl, rfl⟩; exact ⟨rfl, t, rfl⟩

theorem strHas_iff (n h : Str) : strHas n h = true ↔ Occurs n h := by
  induction h with
  | nil =>
    simp only [strHas, strStarts_iff, Occurs]
    constructor
    · rintro ⟨t, ht⟩
      exact ⟨[], t, ht⟩
    · rintro ⟨pre, post, hp⟩
      rcases List.append_eq_nil.mp hp.symm with ⟨rfl, h2⟩
      exact ⟨post, hp⟩
  | cons c cs ih =>
    simp only [strHas, Bool.or_eq_true, strStarts_iff, ih, Occurs]
    constructor
    · rintro (⟨t, ht⟩ | ⟨pre, post, hp⟩)
      · exact ⟨[], t, ht⟩
      · exact ⟨c :: pre, post, by simp [hp]⟩
    · rintro ⟨pre, post, hp⟩
      cases pre with
      | nil => exact Or.inl ⟨post, by simpa using hp⟩
      | cons d pre' =>
        right
        have hp' : cs = pre' ++ (n ++ post) := by
          have := congrArg List.tail hp
          simpa using this
        exact ⟨pre', post, hp'⟩

/-! ### C7: the text signature matcher -/

/-- C7: `contains_watermark` is true exactly for strings that contain
some configured keyword case-insensitively (so any letter-case variant
of a keyword is caught), false for strings containing none, and false
for empty or absent input; it is a pure function of its input. -/
theorem contains_watermark_spec :
    (∀ s : Str, contains_watermark s = true ↔
      ∃ kw ∈ WATERMARK_KEYWORDS, Occurs (lowerStr kw) (lowerStr s)) ∧
    contains_watermark [] = false ∧ contains_watermarkOpt none = false := by
  refine ⟨fun s => ?_, rfl, rfl⟩
  cases s with
  | nil =>
    simp only [contains_watermark, List.isEmpty_nil, if_true]
    constructor
    · intro h; cases h
    · rintro ⟨kw, hkw, pre, post, hp⟩
      have hlen : pre.length + (kw.length + post.length) = 0 := by
        simpa [lowerStr] using congrArg List.length hp.symm
      have hkw0 : kw = [] := List.eq_nil_of_length_eq_zero (by omega)
      subst hkw0
      exact absurd hkw (by decide)
  | cons c cs =>
    simp only [contains_watermark, List.isEmpty_cons, if_false, Bool.false_eq_true,
      List.any_eq_true]
    constructor
    · rintro ⟨kw, hkw, hh⟩
      exact ⟨kw, hkw, (strHas_iff _ _).mp hh⟩
    · rintro ⟨kw, hkw, ho⟩
      exact ⟨kw, hkw, (strHas_iff _ _).mpr ho⟩

/-! ### C6: the main-content size threshold -/

/-- C6: with Subtype `/Image` and both dimensions present, an XObject
is a removal candidate iff width < 1000 or height < 1000 (i.e. it is
kept as main content iff both dimensions are at least 1000); the
boundary is inclusive — 1000×1000 is kept and 999×2000 is a
candidate. -/
theorem image_threshold_spec :
    (∀ w h : Int, isCandidate ⟨some imageName, some w, some h⟩ = true ↔
      w < 1000 ∨ h < 1000) ∧
    isCandidate ⟨some imageName, some 1000, some 1000⟩ = false ∧
    isCandidate ⟨some imageName, some 999, some 2000⟩ = true := by
  refine ⟨fun w h => ?_, by decide, by decide⟩
  simp only [isCandidate, MAIN_CONTENT_THRESHOLD, Bool.and_eq_true, decide_eq_true_eq,
    Bool.not_eq_true', Bool.and_eq_false_iff, decide_eq_false_iff_not, not_le, true_and]

/-! ### C10: non-image XObjects are never removed -/

theorem assoc_nodup_eq {res : List (Str × XObj)} (hnd : (res.map Prod.fst).Nodup)
    {k : Str} {x y : XObj} (hx : (k, x) ∈ res) (hy : (k, y) ∈ res) : x = y := by
  induction res with
  | nil => cases hx
  | cons e es ih =>
    rw [List.map_cons, List.nodup_cons] at hnd
    rcases List.mem_cons.mp hx with hex | hx' <;>
      rcases List.mem_cons.mp hy with hey | hy'
    · rw [← hey] at hex; exact congrArg Prod.snd hex
    · exfalso
      have hk : e.1 ∈ es.map Prod.fst := by
        rw [← hex]
        show k ∈ es.map Prod.fst
        exact List.mem_map_of_mem Prod.fst hy'
      exact hnd.1 hk
    · exfalso
      have hk : e.1 ∈ es.map Prod.fst := by
        rw [← hey]
        show k ∈ es.map Prod.fst
        exact List.mem_map_of_mem Prod.fst hx'
      exact hnd.1 hk
    · exact ih hnd.2 hx' hy'

theorem isCandidate_subtype {x : XObj} (h : isCandidate x = true) :
    x.subtype = some imageName := by
  have := (Bool.and_eq_true ..).mp h
  exact of_decide_eq_true this.1

/-- C10: the image pass never removes an XObject whose Subtype is not
`/Image` (for instance a Form XObject), whatever its dimensions or
missing Width/Height fields: the entry is still in the page's XObject
table after the pass. -/
theorem image_pass_keeps_non_image_xobjects
    (p : Page) (res : List (Str × XObj)) (key : Str) (x : XObj)
    (hres : p.xobjects = some res) (hnd : (res.map Prod.fst).Nodup)
    (hmem : (key, x) ∈ res) (hsub : x.subtype ≠ some imageName) :
    ∃ res', (imagePassPage p).xobjects = some res' ∧ (key, x) ∈ res' := by
  refine ⟨res.filter (fun e => !(decide (e.1 ∈ candidateKeys res))), ?_, ?_⟩
  · simp [imagePassPage, hres]
  · rw [List.mem_filter]
    refine ⟨hmem, ?_⟩
    rw [Bool.not_eq_true', decide_eq_false_iff_not]
    intro hk
    simp only [candidateKeys, List.mem_map, List.mem_filter] at hk
    obtain ⟨⟨k1, y⟩, ⟨hyres, hycand⟩, hk1⟩ := hk
    rw [show k1 = key from hk1] at hyres
    exact hsub (isCandidate_subtype ((assoc_nodup_eq hnd hmem hyres) ▸ hycand))

theorem image_pass_keeps_non_image_xobjects_witness :
    ∃ res',
      (imagePassPage
        ⟨some [(("Fm0").toList, ⟨some (("Form").toList), none, none⟩)],
          [("x").toList]⟩).xobjects = some res' ∧
      ((("Fm0").toList, (⟨some (("Form").toList), none, none⟩ : XObj)) ∈ res') :=
  image_pass_keeps_non_image_xobjects _ _ _ _ rfl (by decide) (by decide) (by decide)

/-! ### C8: TIFF export -/

/-- C8 counterexample: a document whose single page renders
successfully, but the final multi-page TIFF save fails; the export
(and hence the run) reports failure even though one page rendered,
refuting "fails if and only if zero pages rendered successfully". -/
theorem export_to_tif_save_failure_ce :
    renderedImages [(⟨some 0, none⟩ : RenderAttempt Nat)] ≠ [] ∧
    export_to_tif [(⟨some 0, none⟩ : RenderAttempt Nat)] false = none := by decide

/-- C8 amended: the TIFF export fails iff zero pages rendered
successfully or the final encode/write step fails; when it succeeds,
the output is exactly the successfully rendered pages, in page
order, as one multi-page image list. -/
theorem export_to_tif_spec {Img : Type} (ats : List (RenderAttempt Img)) (saveOk : Bool) :
    (export_to_tif ats saveOk = none ↔ renderedImages ats = [] ∨ saveOk = false) ∧
    (∀ l, export_to_tif ats saveOk = some l → l = renderedImages ats) := by
  cases h : renderedImages ats with
  | nil => simp [export_to_tif, h]
  | cons i is =>
    cases saveOk with
    | false => simp [export_to_tif, h]
    | true =>
      refine ⟨by simp [export_to_tif, h], fun l hl => ?_⟩
      have h2 : some (i :: is) = some l := by simpa [export_to_tif, h] using hl
      exact (Option.some.injEq .. ▸ h2).symm

theorem export_to_tif_spec_witness :
    ([3] : List Nat) = renderedImages [(⟨some 3, none⟩ : RenderAttempt Nat)] :=
  (export_to_tif_spec [(⟨some 3, none⟩ : RenderAttempt Nat)] true).2 [3] (by decide)

/-! ### Counterexamples for the rewriter claims C1 - C4 -/

/-- C1 counterexample: a page with one small (candidate) image `Im1`
and content stream `/Imq Q1 Do`.  The pass deletes `Im1` from the
resource table, yet the rewritten stream is `/Im1 Do`: collapsing the
empty `q Q` bracket spliced the surrounding text into a dangling
reference to the deleted identifier. -/
theorem image_pass_dangling_reference_ce :
    (imagePassPage ⟨some [(("Im1").toList, ⟨some imageName, some 50, some 50⟩)],
        [("/Imq Q1 Do").toList]⟩).xobjects = some [] ∧
    (imagePassPage ⟨some [(("Im1").toList, ⟨some imageName, some 50, some 50⟩)],
        [("/Imq Q1 Do").toList]⟩).contents = [("/Im1 Do").toList] ∧
    Occurs (("/Im1").toList) (("/Im1 Do").toList) :=
  ⟨by decide, by decide, [], (" Do").toList, by decide⟩

/-- C2 counterexample: cleaning the stream `/Imq Q1 Do` for the single
identifier `Im1` yields `/Im1 Do`, which contains `/Im1` followed by
whitespace and `Do` — the `q\s+Q` cleanup spliced a fresh occurrence
into the output. -/
theorem strip_references_keydo_ce :
    HasKeyDo (("Im1").toList)
      (cleanContentStream [("Im1").toList] (("/Imq Q1 Do").toList)) :=
  ⟨[], [' '], [], by decide, by decide, by decide⟩

/-- C3 counterexample: the rewriter is not idempotent: cleaning
`/Xq Q Do` for `X` yields `/X Do`, and cleaning that output again
yields the empty stream. -/
theorem strip_references_not_idempotent_ce :
    cleanContentStream [("X").toList]
        (cleanContentStream [("X").toList] (("/Xq Q Do").toList)) ≠
      cleanContentStream [("X").toList] (("/Xq Q Do").toList) := by decide

/-- C4 counterexample: on the stream `q Q` (two drawing operators that
reference no identifier at all) the rewriter deletes both operators,
so unrelated operators are not always preserved. -/
theorem strip_references_removes_unrelated_ce :
    cleanContentStream [("Im1").toList] (("q Q").toList) = [] ∧
    ("q Q").toList ≠ [] := by decide

/-! ### The rewriter only deletes: sublist lemmas -/

theorem subDelF_sublist (m : Str → Option Nat) :
    ∀ (f : Nat) (s : Str), subDelF m f s <+ s := by
  intro f
  induction f with
  | zero => intro s; exact List.nil_sublist s
  | succ f ih =>
    intro s
    cases s with
    | nil => exact List.Sublist.refl _
    | cons c cs =>
      cases hm : m (c :: cs) with
      | none =>
        simp only [subDelF, hm]
        exact List.Sublist.cons₂ c (ih cs)
      | some n =>
        cases n with
        | zero =>
          simp only [subDelF, hm]
          exact List.Sublist.cons₂ c (ih cs)
        | succ n' =>
          simp only [subDelF, hm]
          exact List.Sublist.cons _ (((ih (List.drop n' cs)).trans
            (List.drop_sublist n' cs)))

theorem subDel_sublist (m : Str → Option Nat) (s : Str) : subDel m s <+ s :=
  subDelF_sublist m s.length s

theorem nlInner_shape : ∀ {t : Str} {k k2 : Nat}, nlInner t k = some k2 →
    ∃ rest, List.drop k2 t = '\n' :: rest := by
  intro t k
  induction k with
  | zero =>
    intro k2 h
    rw [nlInner] at h
    by_cases hs : strStarts ('\n' :: []) t = true
    · rw [if_pos hs] at h
      obtain ⟨u, hu⟩ := (strStarts_iff _ _).mp hs
      injection h with h2
      subst h2
      exact ⟨u, by simpa using hu⟩
    · rw [if_neg hs] at h; cases h
  | succ k ih =>
    intro k2 h
    rw [nlInner] at h
    by_cases hs : strStarts ('\n' :: []) (List.drop (k + 1) t) = true
    · rw [if_pos hs] at h
      obtain ⟨u, hu⟩ := (strStarts_iff _ _).mp hs
      injection h with h2
      subst h2
      exact ⟨u, by simpa using hu⟩
    · rw [if_neg hs] at h
      exact ih h

theorem nlAt_shape {t : Str} {k k2 : Nat} (h : nlAt t k = some k2) :
    ∃ t2 rest, List.drop k t = '\n' :: t2 ∧ List.drop k2 t2 = '\n' :: rest := by
  rw [nlAt] at h
  split at h
  next t2 heq => exact ⟨t2, (nlInner_shape h).choose, heq, (nlInner_shape h).choose_spec⟩
  next => exact Option.noConfusion h

theorem nlOuter_shape : ∀ {t : Str} {k k1 k2 : Nat}, nlOuter t k = some (k1, k2) →
    ∃ t2 rest, List.drop k1 t = '\n' :: t2 ∧ List.drop k2 t2 = '\n' :: rest := by
  intro t k
  induction k with
  | zero =>
    intro k1 k2 h
    rw [nlOuter] at h
    cases hA : nlAt t 0 with
    | none => rw [hA] at h; exact Option.noConfusion h
    | some k2' =>
      rw [hA] at h
      injection h with h2
      obtain ⟨rfl, rfl⟩ : 0 = k1 ∧ k2' = k2 := Prod.mk.injEq .. ▸ h2
      exact nlAt_shape hA
  | succ k ih =>
    intro k1 k2 h
    rw [nlOuter] at h
    cases hA : nlAt t (k + 1) with
    | none => rw [hA] at h; exact ih h
    | some k2' =>
      rw [hA] at h
      injection h with h2
      obtain ⟨rfl, rfl⟩ : k + 1 = k1 ∧ k2' = k2 := Prod.mk.injEq .. ▸ h2
      exact nlAt_shape hA

theorem matchNL_shape {cs : Str} {k1 k2 : Nat} (h : matchNL cs = some (k1, k2)) :
    ∃ w1 w2 rest, cs = '\n' :: (w1 ++ '\n' :: (w2 ++ '\n' :: rest)) ∧
      w1.length = k1 ∧ w2.length = k2 := by
  cases cs with
  | nil => exact Option.noConfusion h
  | cons c t =>
    rw [matchNL] at h
    by_cases hc : c = '\n'
    · rw [if_pos hc] at h
      subst hc
      obtain ⟨t2, rest, h1, h2⟩ := nlOuter_shape h
      have hk1 : k1 < t.length := by
        by_contra hge
        rw [List.drop_eq_nil_of_le (le_of_not_lt hge)] at h1; cases h1
      have hk2 : k2 < t2.length := by
        by_contra hge
        rw [List.drop_eq_nil_of_le (le_of_not_lt hge)] at h2; cases h2
      have ht : t = List.take k1 t ++ '\n' :: t2 := by
        conv_lhs => rw [← List.take_append_drop k1 t]
        rw [h1]
      have ht2 : t2 = List.take k2 t2 ++ '\n' :: rest := by
        conv_lhs => rw [← List.take_append_drop k2 t2]
        rw [h2]
      refine ⟨List.take k1 t, List.take k2 t2, rest, ?_, ?_, ?_⟩
      · calc '\n' :: t = '\n' :: (List.take k1 t ++ '\n' :: t2) := by rw [← ht]
          _ = '\n' :: (List.take k1 t ++ '\n' :: (List.take k2 t2 ++ '\n' :: rest)) := by
              rw [← ht2]
      · simp [List.length_take]; omega
      · simp [List.length_take]; omega
    · rw [if_neg hc] at h
      exact Option.noConfusion h

theorem subNLF_sublist : ∀ (f : Nat) (s : Str), subNLF f s <+ s := by
  intro f
  induction f with
  | zero => intro s; exact List.nil_sublist s
  | succ f ih =>
    intro s
    cases s with
    | nil => exact List.Sublist.refl _
    | cons c cs =>
      cases hm : matchNL (c :: cs) with
      | none =>
        simp only [subNLF, hm]
        exact List.Sublist.cons₂ c (ih cs)
      | some p =>
        obtain ⟨k1, k2⟩ := p
        simp only [subNLF, hm]
        obtain ⟨w1, w2, rest, hcs, hl1, hl2⟩ := matchNL_shape hm
        have hc : c = '\n' := (List.cons.injEq .. ▸ hcs).1
        have hcs' : cs = w1 ++ '\n' :: (w2 ++ '\n' :: rest) := (List.cons.injEq .. ▸ hcs).2
        have hdrop : List.drop (k1 + k2 + 2) cs = rest := by
          rw [hcs', ← hl1, ← hl2]
          rw [show w1.length + w2.length + 2 = w1.length + (w2.length + 2) from by omega]
          rw [List.drop_append]
          rw [show w2.length + 2 = (w2.length + 1) + 1 from by omega, List.drop_succ_cons]
          rw [List.drop_append 1]
          simp
        rw [hdrop, hc, hcs']
        apply List.Sublist.cons₂
        refine List.Sublist.trans ?_ (List.sublist_append_right w1 _)
        apply List.Sublist.cons₂
        exact ((ih rest).trans (List.sublist_cons_self '\n' rest)).trans
          (List.sublist_append_right w2 _)

theorem subNL_sublist (s : Str) : subNL s <+ s := subNLF_sublist s.length s

theorem applyKey_sublist (s key : Str) : applyKey s key <+ s :=
  ((((subDel_sublist _ _).trans (subDel_sublist _ _)).trans
    (subDel_sublist _ _)).trans (subDel_sublist _ _)).trans (subDel_sublist _ _)

theorem foldl_applyKey_sublist : ∀ (keys : List Str) (s : Str),
    List.foldl applyKey s keys <+ s := by
  intro keys
  induction keys with
  | nil => intro s; exact List.Sublist.refl s
  | cons k ks ih => intro s; exact (ih (applyKey s k)).trans (applyKey_sublist s k)

theorem cleanData_sublist (keys : List Str) (s : Str) : cleanData keys s <+ s :=
  ((subNL_sublist _).trans (subDel_sublist matchQQ _)).trans
    (foldl_applyKey_sublist keys s)

/-- C4 amended: the Content-Stream Rewriter never inserts, duplicates
or reorders content — its output is always a subsequence of its input
(it only deletes) — but it does not preserve every unrelated operator:
empty `q ... Q` brackets are collapsed outright and a bracket
containing a matched invocation is removed whole (see the
counterexample). -/
theorem cleanContentStream_sublist (keys : List Str) (s : Str) :
    cleanContentStream keys s <+ s := by
  by_cases h : (cleanData keys s).length = s.length
  · simp only [cleanContentStream, if_pos h]
    exact List.Sublist.refl s
  · simp only [cleanContentStream, if_neg h]
    exact cleanData_sublist keys s

/-- the length test of `_clean_content_references` is immaterial:
substitutions only delete, so an unchanged length forces an unchanged
stream, and the written-back stream always equals `cleanData`. -/
theorem cleanContentStream_eq (keys : List Str) (s : Str) :
    cleanContentStream keys s = cleanData keys s := by
  by_cases h : (cleanData keys s).length = s.length
  · simp only [cleanContentStream, if_pos h]
    exact ((cleanData_sublist keys s).eq_of_length h).symm
  · simp only [cleanContentStream, if_neg h]

/-! ### No match means no change (C3 amended) -/

theorem hasPat_false_iff {α : Type} (m : Str → Option α) :
    ∀ s : Str, hasPat m s = false ↔ NoMatch m s := by
  intro s
  induction s with
  | nil =>
    simp only [hasPat, NoMatch, List.drop_nil, Option.not_isSome,
      Option.isNone_iff_eq_none]
    exact ⟨fun h _ => h, fun h => h 0⟩
  | cons c cs ih =>
    simp only [hasPat, Bool.or_eq_false_iff, Option.not_isSome,
      Option.isNone_iff_eq_none, ih]
    constructor
    · rintro ⟨h0, hrest⟩ i
      cases i with
      | zero => exact h0
      | succ i => exact hrest i
    · intro h
      exact ⟨h 0, fun i => h (i + 1)⟩

theorem subDelF_id (m : Str → Option Nat) :
    ∀ (f : Nat) (s : Str), s.length ≤ f → NoMatch m s → subDelF m f s = s := by
  intro f
  induction f with
  | zero =>
    intro s hl _
    have hs : s = [] := List.eq_nil_of_length_eq_zero (Nat.le_zero.mp hl)
    subst hs; rfl
  | succ f ih =>
    intro s hl hnm
    cases s with
    | nil => rfl
    | cons c cs =>
      have h0 : m (c :: cs) = none := hnm 0
      simp only [subDelF, h0]
      congr 1
      exact ih cs (by simpa using hl) (fun i => hnm (i + 1))

theorem subDel_id (m : Str → Option Nat) (s : Str) (h : NoMatch m s) : subDel m s = s :=
  subDelF_id m s.length s le_rfl h

theorem subNLF_id :
    ∀ (f : Nat) (s : Str), s.length ≤ f → NoMatch matchNL s → subNLF f s = s := by
  intro f
  induction f with
  | zero =>
    intro s hl _
    have hs : s = [] := List.eq_nil_of_length_eq_zero (Nat.le_zero.mp hl)
    subst hs; rfl
  | succ f ih =>
    intro s hl hnm
    cases s with
    | nil => rfl
    | cons c cs =>
      have h0 : matchNL (c :: cs) = none := hnm 0
      simp only [subNLF, h0]
      congr 1
      exact ih cs (by simpa using hl) (fun i => hnm (i + 1))

theorem subNL_id (s : Str) (h : NoMatch matchNL s) : subNL s = s :=
  subNLF_id s.length s le_rfl h

theorem applyKey_id {s k : Str} (h1 : NoMatch (matchP1 k) s) (h2 : NoMatch (matchP2 k) s)
    (h3 : NoMatch (matchP3 k) s) (h4 : NoMatch (matchP4 k) s)
    (h5 : NoMatch (matchP5 k) s) : applyKey s k = s := by
  unfold applyKey
  rw [subDel_id _ _ h1, subDel_id _ _ h2, subDel_id _ _ h3, subDel_id _ _ h4,
    subDel_id _ _ h5]

/-- C3 amended: when none of the substitution patterns matches the
stream, the rewriter returns the original bytes unchanged (the
idempotent no-op part of the claim); full idempotence fails in
general, because the cleanup substitutions can splice surviving text
into fresh matches (see the counterexample). -/
theorem strip_references_noop_of_no_match (keys : List Str) (s : Str)
    (h : NoPatternMatch keys s) : cleanContentStream keys s = s := by
  obtain ⟨hkeys, hqq, hnl⟩ := h
  have hfold : List.foldl applyKey s keys = s := by
    induction keys with
    | nil => rfl
    | cons k ks ih =>
      have hk := hkeys k (List.mem_cons_self ..)
      rw [List.foldl_cons, applyKey_id hk.1 hk.2.1 hk.2.2.1 hk.2.2.2.1 hk.2.2.2.2]
      exact ih (fun k' hk' => hkeys k' (List.mem_cons_of_mem _ hk'))
  rw [cleanContentStream_eq, cleanData, hfold, subDel_id _ _ hqq, subNL_id _ hnl]

theorem strip_references_noop_of_no_match_witness :
    cleanContentStream [("Im1").toList] (("BT (hello) Tj ET").toList) =
      ("BT (hello) Tj ET").toList := by
  apply strip_references_noop_of_no_match
  refine ⟨?_, ?_, ?_⟩
  · intro k hk
    have hk1 : k = ("Im1").toList := by simpa using hk
    subst hk1
    exact ⟨(hasPat_false_iff _ _).mp (by decide), (hasPat_false_iff _ _).mp (by decide),
      (hasPat_false_iff _ _).mp (by decide), (hasPat_false_iff _ _).mp (by decide),
      (hasPat_false_iff _ _).mp (by decide)⟩
  · exact (hasPat_false_iff _ _).mp (by decide)
  · exact (hasPat_false_iff _ _).mp (by decide)

/-! ### The text pass (C5, C9) -/

theorem collectBlock_snd_le : ∀ ls : List Str, (collectBlock ls).2.length ≤ ls.length := by
  intro ls
  induction ls with
  | nil => exact Nat.le_refl 0
  | cons l ls ih =>
    by_cases h : stripLine l = ("ET").toList
    · simp [collectBlock, h]
    · simp only [collectBlock, if_neg h]
      exact Nat.le_trans ih (Nat.le_succ _)

theorem collectBlock_append :
    ∀ ls : List Str, (collectBlock ls).1 ++ (collectBlock ls).2 = ls := by
  intro ls
  induction ls with
  | nil => rfl
  | cons l ls ih =>
    by_cases h : stripLine l = ("ET").toList
    · simp [collectBlock, h]
    · simp only [collectBlock, if_neg h, List.cons_append]
      rw [ih]

theorem collectBlock_no_et (ls : List Str) (h : ∀ l ∈ ls, stripLine l ≠ ("ET").toList) :
    collectBlock ls = (ls, []) := by
  induction ls with
  | nil => rfl
  | cons l ls ih =>
    rw [collectBlock, if_neg (h l (List.mem_cons_self ..)),
      ih (fun x hx => h x (List.mem_cons_of_mem _ hx))]

theorem textCleanF_nil : ∀ (f n : Nat), textCleanF f [] n = ([], n) := by
  intro f n; cases f <;> rfl

theorem textCleanF_add : ∀ (f : Nat) (ls : List Str) (n : Nat), ls.length ≤ f →
    textCleanF f ls n = ((textCleanF f ls 0).1, n + (textCleanF f ls 0).2) := by
  intro f
  induction f with
  | zero =>
    intro ls n hl
    have hls : ls = [] := List.eq_nil_of_length_eq_zero (Nat.le_zero.mp hl)
    subst hls; simp [textCleanF]
  | succ f ih =>
    intro ls n hl
    cases ls with
    | nil => simp [textCleanF]
    | cons l ls' =>
      have hl' : ls'.length ≤ f := by simpa using hl
      have bnd : (collectBlock ls').2.length ≤ f :=
        Nat.le_trans (collectBlock_snd_le ls') hl'
      simp only [textCleanF]
      by_cases hb : stripLine l = ("BT").toList
      · rw [if_pos hb, if_pos hb]
        by_cases hw : contains_watermark (joinNl (l :: (collectBlock ls').1)) = true
        · rw [if_pos hw, if_pos hw]
          rw [ih (collectBlock ls').2 (n + 1) bnd, ih (collectBlock ls').2 1 bnd]
          simp only [Prod.mk.injEq]
          exact ⟨trivial, by omega⟩
        · rw [if_neg hw, if_neg hw]
          rw [ih (collectBlock ls').2 n bnd]
      · rw [if_neg hb, if_neg hb]
        rw [ih ls' n hl']

theorem textCleanF_zero_drops : ∀ (f : Nat) (ls : List Str), ls.length ≤ f →
    (textCleanF f ls 0).2 = 0 → (textCleanF f ls 0).1 = ls := by
  intro f
  induction f with
  | zero =>
    intro ls hl _
    have hls : ls = [] := List.eq_nil_of_length_eq_zero (Nat.le_zero.mp hl)
    subst hls; rfl
  | succ f ih =>
    intro ls hl h0
    cases ls with
    | nil => rfl
    | cons l ls' =>
      have hl' : ls'.length ≤ f := by simpa using hl
      have bnd : (collectBlock ls').2.length ≤ f :=
        Nat.le_trans (collectBlock_snd_le ls') hl'
      simp only [textCleanF] at h0 ⊢
      by_cases hb : stripLine l = ("BT").toList
      · rw [if_pos hb] at h0 ⊢
        by_cases hw : contains_watermark (joinNl (l :: (collectBlock ls').1)) = true
        · exfalso
          rw [if_pos hw] at h0
          rw [textCleanF_add f (collectBlock ls').2 1 bnd] at h0
          omega
        · rw [if_neg hw] at h0 ⊢
          have h0' : (textCleanF f (collectBlock ls').2 0).2 = 0 := h0
          have := ih (collectBlock ls').2 bnd h0'
          show (l :: (collectBlock ls').1) ++ (textCleanF f (collectBlock ls').2 0).1 =
            l :: ls'
          rw [this, List.cons_append, collectBlock_append]
      · rw [if_neg hb] at h0 ⊢
        have h0' : (textCleanF f ls' 0).2 = 0 := h0
        show l :: (textCleanF f ls' 0).1 = l :: ls'
        rw [ih ls' hl' h0']

theorem joinNl_splitNl (s : Str) : joinNl (splitNl s) = s :=
  List.intercalate_splitOn s '\n'

theorem textPassStream_no_drop (s : Str) (n : Nat)
    (hnd : (textClean (splitNl s) 0).2 = 0) : textPassStream s n = (s, n) := by
  have hadd : textClean (splitNl s) n =
      ((textClean (splitNl s) 0).1, n + (textClean (splitNl s) 0).2) :=
    textCleanF_add (splitNl s).length (splitNl s) n le_rfl
  have h1 : (textClean (splitNl s) 0).1 = splitNl s :=
    textCleanF_zero_drops (splitNl s).length (splitNl s) le_rfl hnd
  show (if 0 < (textClean (splitNl s) n).2 then joinNl (textClean (splitNl s) n).1 else s,
    (textClean (splitNl s) n).2) = (s, n)
  rw [hadd, hnd, h1]
  simp [joinNl_splitNl]

/-- C5: a content stream from which the text pass drops no `BT..ET`
block comes out byte-identical (equivalently: a stream is changed
only when at least one of its own blocks was dropped).  The shared
document-global counter can make the source call `stream.write` for
such a stream, but what it writes is the unchanged original line
sequence rejoined, so the stream's content is not rewritten. -/
theorem text_pass_no_drop_unchanged : ∀ (ss : List Str) (n i : Nat) (s : Str),
    ss[i]? = some s → (textClean (splitNl s) 0).2 = 0 →
    ((textPass ss n).1)[i]? = some s := by
  intro ss
  induction ss with
  | nil =>
    intro n i s hs _
    simp at hs
  | cons t ts ih =>
    intro n i s hs hnd
    cases i with
    | zero =>
      have ht : t = s := by simpa using hs
      subst ht
      show ((textPassStream t n).1 :: (textPass ts (textPassStream t n).2).1)[0]? = some t
      rw [textPassStream_no_drop t n hnd]
      simp
    | succ i =>
      have hs' : ts[i]? = some s := by simpa using hs
      show ((textPassStream t n).1 ::
        (textPass ts (textPassStream t n).2).1)[i + 1]? = some s
      simp only [List.getElem?_cons_succ]
      exact ih (textPassStream t n).2 i s hs' hnd

theorem text_pass_no_drop_unchanged_witness :
    ((textPass [("BT\n(camscanner)\nET\nx").toList, ("keep me").toList] 0).1)[1]? =
      some (("keep me").toList) :=
  text_pass_no_drop_unchanged _ 0 1 _ (by decide) (by decide)

theorem textClean_cons_bt_drop {l : Str} {ls : List Str} {n : Nat}
    (hb : stripLine l = ("BT").toList)
    (hw : contains_watermark (joinNl (l :: (collectBlock ls).1)) = true) :
    textClean (l :: ls) n = textCleanF ls.length (collectBlock ls).2 (n + 1) := by
  show textCleanF (ls.length + 1) (l :: ls) n = _
  simp only [textCleanF, if_pos hb, if_pos hw]

theorem textClean_cons_not_bt {l : Str} {ls : List Str} {n : Nat}
    (h : stripLine l ≠ ("BT").toList) :
    textClean (l :: ls) n = (l :: (textClean ls n).1, (textClean ls n).2) := by
  show textCleanF (ls.length + 1) (l :: ls) n = _
  simp only [textCleanF, if_neg h]
  rfl

/-- C9: a `BT` line with no subsequent `ET` line opens a block that
extends to the end of the stream; if that block's full text matches
the watermark rule, everything from the `BT` line to the end of the
stream is dropped (and counted), leaving only the lines before it. -/
theorem text_block_unterminated_dropped (pre : List Str) (bt : Str) (rest : List Str)
    (n : Nat) (hpre : ∀ l ∈ pre, stripLine l ≠ ("BT").toList)
    (hbt : stripLine bt = ("BT").toList)
    (hrest : ∀ l ∈ rest, stripLine l ≠ ("ET").toList)
    (hw : contains_watermark (joinNl (bt :: rest)) = true) :
    textClean (pre ++ bt :: rest) n = (pre, n + 1) := by
  induction pre with
  | nil =>
    rw [List.nil_append]
    have hcb := collectBlock_no_et rest hrest
    have hw' : contains_watermark (joinNl (bt :: (collectBlock rest).1)) = true := by
      rw [hcb]; exact hw
    rw [textClean_cons_bt_drop hbt hw', hcb]
    exact textCleanF_nil rest.length (n + 1)
  | cons l pre' ih =>
    rw [List.cons_append, textClean_cons_not_bt (hpre l (List.mem_cons_self ..))]
    rw [ih (fun x hx => hpre x (List.mem_cons_of_mem _ hx))]

theorem text_block_unterminated_dropped_witness :
    textClean [("q").toList, ("BT").toList, ("(CamScanner) Tj").toList] 0 =
      ([("q").toList], 1) :=
  text_block_unterminated_dropped [("q").toList] (("BT").toList)
    [("(CamScanner) Tj").toList] 0 (by decide) (by decide) (by decide) (by decide)

/-! ### Character-class facts and driver unfolding (towards C2) -/

theorem isWord_eq_false_of_isWs {c : Char} (h : isWs c = true) : isWord c = false := by
  simp only [isWs, Bool.or_eq_true, Bool.and_eq_true, decide_eq_true_eq,
    beq_iff_eq] at h
  simp only [isWord, Bool.or_eq_false_iff, Bool.and_eq_false_iff, decide_eq_false_iff_not,
    not_le, beq_eq_false_iff_ne, ne_eq]
  omega

theorem isWord_slash : isWord '/' = false := by decide

theorem getLastD_mem_of_ne_nil : ∀ (l : Str) (d : Char), l ≠ [] → l.getLastD d ∈ l := by
  intro l
  induction l with
  | nil => intro d h; exact absurd rfl h
  | cons a l' ih =>
    intro d _
    rw [List.getLastD_cons]
    by_cases hl : l' = []
    · subst hl; simp
    · exact List.mem_cons_of_mem a (ih a hl)

theorem wsRun_pos {s : Str} (h : 1 ≤ wsRun s) :
    ∃ c cs, s = c :: cs ∧ isWs c = true := by
  cases s with
  | nil => simp [wsRun, runLen] at h
  | cons c cs =>
    refine ⟨c, cs, rfl, ?_⟩
    by_contra hne
    rw [Bool.not_eq_true] at hne
    rw [wsRun, runLen, if_neg (by simp [hne])] at h
    omega

theorem subDelF_fuel (m : Str → Option Nat) :
    ∀ (f g : Nat) (s : Str), s.length ≤ f → s.length ≤ g → subDelF m f s = subDelF m g s := by
  intro f
  induction f with
  | zero =>
    intro g s hf _
    have hs : s = [] := List.eq_nil_of_length_eq_zero (Nat.le_zero.mp hf)
    subst hs; cases g <;> rfl
  | succ f ih =>
    intro g s hf hg
    cases s with
    | nil => cases g <;> rfl
    | cons c cs =>
      cases g with
      | zero => simp at hg
      | succ g' =>
        have hf' : cs.length ≤ f := by simp at hf; omega
        have hg' : cs.length ≤ g' := by simp at hg; omega
        simp only [subDelF]
        cases hm : m (c :: cs) with
        | none => rw [ih g' cs hf' hg']
        | some n =>
          cases n with
          | zero => rw [ih g' cs hf' hg']
          | succ n' =>
            have hd : (List.drop n' cs).length ≤ f := by
              rw [List.length_drop]; omega
            have hd' : (List.drop n' cs).length ≤ g' := by
              rw [List.length_drop]; omega
            exact ih g' _ hd hd'

theorem subDel_cons_none {m : Str → Option Nat} {c : Char} {cs : Str}
    (h : m (c :: cs) = none) : subDel m (c :: cs) = c :: subDel m cs := by
  show subDelF m (cs.length + 1) (c :: cs) = _
  simp only [subDelF, h]
  rfl

theorem subDel_cons_some {m : Str → Option Nat} {c : Char} {cs : Str} {n : Nat}
    (h : m (c :: cs) = some (n + 1)) :
    subDel m (c :: cs) = subDel m (List.drop n cs) := by
  show subDelF m (cs.length + 1) (c :: cs) = subDelF m (List.drop n cs).length _
  simp only [subDelF, h]
  exact subDelF_fuel m cs.length _ _ (by rw [List.length_drop]; omega) le_rfl

/-! ### Shape lemmas for pattern 4 -/

theorem matchP4_nil (key : Str) : matchP4 key [] = none := rfl

theorem matchP4_some_shape {key cs : Str} {n : Nat} (h : matchP4 key cs = some n) :
    cs = ('/' :: key) ++ List.drop (key.length + 1) cs ∧
    bdryOkB key (List.drop (key.length + 1) cs) = true ∧ n = key.length + 1 := by
  simp only [matchP4] at h
  by_cases hp : strStarts ('/' :: key) cs = true
  · rw [if_pos hp] at h
    obtain ⟨rest0, hr⟩ := (strStarts_iff _ _).mp hp
    have hdrop : List.drop (key.length + 1) cs = rest0 := by
      rw [hr]; exact List.drop_left' (by simp)
    rw [hdrop] at h ⊢
    split at h
    next =>
      by_cases hb : isWord (key.getLastD '/') = true
      · rw [if_pos hb] at h
        exact ⟨hr, by simpa [bdryOkB] using hb, (Option.some.injEq .. ▸ h).symm⟩
      · rw [if_neg hb] at h; exact Option.noConfusion h
    next r rs =>
      by_cases hb : (isWord (key.getLastD '/') != isWord r) = true
      · rw [if_pos hb] at h
        exact ⟨hr, by simpa [bdryOkB] using hb, (Option.some.injEq .. ▸ h).symm⟩
      · rw [if_neg hb] at h; exact Option.noConfusion h
  · rw [if_neg hp] at h; exact Option.noConfusion h

theorem matchP4_of_shape {key rest : Str} (hbd : bdryOkB key rest = true) :
    matchP4 key (('/' :: key) ++ rest) = some (key.length + 1) := by
  have hp : strStarts ('/' :: key) (('/' :: key) ++ rest) = true :=
    (strStarts_iff _ _).mpr ⟨rest, rfl⟩
  have hdrop : List.drop (key.length + 1) (('/' :: key) ++ rest) = rest :=
    List.drop_left' (by simp)
  simp only [matchP4, if_pos hp, hdrop]
  cases rest with
  | nil =>
    have hb : isWord (key.getLastD '/') = true := hbd
    show (if isWord (key.getLastD '/') = true then some (key.length + 1) else none) = _
    rw [if_pos hb]
  | cons r rs =>
    have hb : (isWord (key.getLastD '/') != isWord r) = true := hbd
    show (if (isWord (key.getLastD '/') != isWord r) = true then
      some (key.length + 1) else none) = _
    rw [if_pos hb]

theorem bdryOkB_false_of_none {key u : Str}
    (h : matchP4 key (('/' :: key) ++ u) = none) : bdryOkB key u = false := by
  by_contra htrue
  rw [Bool.not_eq_false] at htrue
  rw [matchP4_of_shape htrue] at h
  exact Option.noConfusion h

theorem matchP4_head_slash {key : Str} {c : Char} {cs : Str} {n : Nat}
    (h : matchP4 key (c :: cs) = some n) : c = '/' := by
  have := (matchP4_some_shape h).1
  exact (List.cons.injEq .. ▸ this).1

theorem matchP4_word_head {key : Str} {c : Char} {cs : Str} (hc : isWord c = true) :
    matchP4 key (c :: cs) = none := by
  cases hm : matchP4 key (c :: cs) with
  | none => rfl
  | some n =>
    have := matchP4_head_slash hm
    subst this
    rw [isWord_slash] at hc
    exact Bool.noConfusion hc

theorem matchP4_ne_some_zero (key : Str) (cs : Str) : matchP4 key cs ≠ some 0 := by
  intro h
  have := (matchP4_some_shape h).2.2
  omega

/-! ### The pattern-4 substitution leaves no pattern-4 match
(for a non-empty identifier made of word characters) -/

theorem subDelP4_head_word (key : Str) (hk : key ≠ [])
    (hkw : ∀ c ∈ key, isWord c = true) :
    ∀ (N : Nat) (cs : Str), cs.length ≤ N → ∀ (a : Char) (t : Str), isWord a = true →
      subDel (matchP4 key) cs = a :: t →
      ∃ cs', cs = a :: cs' ∧ t = subDel (matchP4 key) cs' := by
  have hlast : isWord (key.getLastD '/') = true :=
    hkw _ (getLastD_mem_of_ne_nil key '/' hk)
  intro N
  induction N with
  | zero =>
    intro cs hl a t _ hs
    have hcs : cs = [] := List.eq_nil_of_length_eq_zero (Nat.le_zero.mp hl)
    subst hcs
    exact absurd hs (by simp [subDel, subDelF])
  | succ N ih =>
    intro cs hl a t ha hs
    cases cs with
    | nil => exact absurd hs (by simp [subDel, subDelF])
    | cons c cs' =>
      cases hm : matchP4 key (c :: cs') with
      | none =>
        rw [subDel_cons_none hm] at hs
        have hca : c = a := (List.cons.injEq .. ▸ hs).1
        have htt : subDel (matchP4 key) cs' = t := (List.cons.injEq .. ▸ hs).2
        exact ⟨cs', by rw [hca], htt.symm⟩
      | some n =>
        cases n with
        | zero => exact absurd hm (matchP4_ne_some_zero key _)
        | succ n' =>
          exfalso
          rw [subDel_cons_some hm] at hs
          obtain ⟨hshape, hbd, hn⟩ := matchP4_some_shape hm
          have hd : List.drop n' cs' = List.drop (key.length + 1) (c :: cs') := by
            have hn' : n' = key.length := by omega
            rw [hn']
            rfl
          rw [hd] at hs
          -- the continuation starts at the boundary witness: empty or non-word head
          cases hrest : List.drop (key.length + 1) (c :: cs') with
          | nil =>
            rw [hrest] at hs
            simp [subDel, subDelF] at hs
          | cons r rs =>
            rw [hrest] at hs hbd
            have hrw : isWord r = false := by
              have hb : (isWord (key.getLastD '/') != isWord r) = true := hbd
              rw [hlast] at hb
              cases hiw : isWord r with
              | false => rfl
              | true => rw [hiw] at hb; simp at hb
            have hlen : (r :: rs).length ≤ N := by
              have := congrArg List.length hshape
              rw [hrest] at this
              simp at this hl ⊢
              omega
            obtain ⟨cs'', hcs'', -⟩ := ih (r :: rs) hlen a t ha hs
            have : r = a := (List.cons.injEq .. ▸ hcs'').1
            rw [this, ha] at hrw
            exact Bool.noConfusion hrw

theorem subDelP4_prefix_word (key : Str) (hk : key ≠ [])
    (hkw : ∀ c ∈ key, isWord c = true) :
    ∀ (w : Str), (∀ c ∈ w, isWord c = true) → ∀ (cs rest : Str),
      subDel (matchP4 key) cs = w ++ rest →
      ∃ u, cs = w ++ u ∧ subDel (matchP4 key) u = rest := by
  intro w
  induction w with
  | nil => intro _ cs rest h; exact ⟨cs, rfl, h⟩
  | cons a w' ihw =>
    intro hw cs rest h
    obtain ⟨cs', hcs, ht⟩ := subDelP4_head_word key hk hkw cs.length cs le_rfl a
      (w' ++ rest) (hw a (List.mem_cons_self ..)) h
    obtain ⟨u, hu, hrest⟩ :=
      ihw (fun c hc => hw c (List.mem_cons_of_mem _ hc)) cs' rest ht.symm
    exact ⟨u, by rw [hcs, hu, List.cons_append], hrest⟩

theorem subDelP4_no_match (key : Str) (hk : key ≠ [])
    (hkw : ∀ c ∈ key, isWord c = true) :
    ∀ (N : Nat) (cs : Str), cs.length ≤ N →
      NoMatch (matchP4 key) (subDel (matchP4 key) cs) := by
  have hlast : isWord (key.getLastD '/') = true :=
    hkw _ (getLastD_mem_of_ne_nil key '/' hk)
  intro N
  induction N with
  | zero =>
    intro cs hl
    have hcs : cs = [] := List.eq_nil_of_length_eq_zero (Nat.le_zero.mp hl)
    subst hcs
    intro i
    simp [subDel, subDelF, matchP4_nil]
  | succ N ih =>
    intro cs hl
    cases cs with
    | nil =>
      intro i
      simp [subDel, subDelF, matchP4_nil]
    | cons c cs' =>
      have hl' : cs'.length ≤ N := by simp at hl; omega
      cases hm : matchP4 key (c :: cs') with
      | some n =>
        cases n with
        | zero => exact absurd hm (matchP4_ne_some_zero key _)
        | succ n' =>
          rw [subDel_cons_some hm]
          apply ih
          rw [List.length_drop]
          omega
      | none =>
        rw [subDel_cons_none hm]
        intro i
        cases i with
        | succ i' => exact ih cs' hl' i'
        | zero =>
          rw [List.drop_zero]
          cases hm2 : matchP4 key (c :: subDel (matchP4 key) cs') with
          | none => rfl
          | some n =>
            exfalso
            obtain ⟨hshape, hbd, hn⟩ := matchP4_some_shape hm2
            have hc : c = '/' := matchP4_head_slash hm2
            -- subDel cs' = key ++ rest₂
            have hsd : subDel (matchP4 key) cs' =
                key ++ List.drop (key.length + 1) (c :: subDel (matchP4 key) cs') := by
              have := (List.cons.injEq .. ▸ hshape).2
              simpa using this
            obtain ⟨u, hu, hrest⟩ :=
              subDelP4_prefix_word key hk hkw key hkw cs' _ hsd
            -- the original stream at this position was '/' :: key ++ u with no match
            have hmu : matchP4 key (('/' :: key) ++ u) = none := by
              rw [← hc]
              show matchP4 key (c :: (key ++ u)) = none
              rw [← hu]
              exact hm
            have hbu : bdryOkB key u = false := bdryOkB_false_of_none hmu
            -- so u starts with a word character
            cases hu0 : u with
            | nil =>
              rw [hu0] at hbu
              have : bdryOkB key ([] : Str) = isWord (key.getLastD '/') := rfl
              rw [this, hlast] at hbu
              exact Bool.noConfusion hbu
            | cons u0 u' =>
              rw [hu0] at hbu
              have hbu' : (isWord (key.getLastD '/') != isWord u0) = false := hbu
              rw [hlast] at hbu'
              have hu0w : isWord u0 = true := by
                cases hiw : isWord u0 with
                | true => rfl
                | false => rw [hiw] at hbu'; simp at hbu'
              -- then subDel u keeps its head, so the boundary of the new match fails
              have hmu0 : matchP4 key (u0 :: u') = none := matchP4_word_head hu0w
              have hsu : subDel (matchP4 key) u = u0 :: subDel (matchP4 key) u' := by
                rw [hu0]
                exact subDel_cons_none hmu0
              rw [hsu] at hrest
              -- rest₂ starts with the word character u0, contradicting its boundary
              rw [← hrest] at hbd
              have hbd' : (isWord (key.getLastD '/') != isWord u0) = true := hbd
              rw [hlast, hu0w] at hbd'
              simp at hbd'

/-! ### After pattern 4, pattern 5 and the cleanups cannot fire -/

theorem keyDoAt_some_shape {key v : Str} {d : Nat} (h : keyDoAt key v = some d) :
    ∃ rest, v = ('/' :: key) ++ rest ∧ 1 ≤ wsRun rest := by
  simp only [keyDoAt] at h
  by_cases hp : strStarts ('/' :: key) v = true
  · rw [if_pos hp] at h
    obtain ⟨rest0, hr⟩ := (strStarts_iff _ _).mp hp
    have hdrop : List.drop (key.length + 1) v = rest0 := by
      rw [hr]; exact List.drop_left' (by simp)
    rw [hdrop] at h
    by_cases hc : (1 ≤ wsRun rest0 &&
        strStarts ('D' :: 'o' :: []) (List.drop (wsRun rest0) rest0)) = true
    · have := (Bool.and_eq_true ..).mp hc
      exact ⟨rest0, hr, of_decide_eq_true this.1⟩
    · rw [if_neg hc] at h; exact Option.noConfusion h
  · rw [if_neg hp] at h; exact Option.noConfusion h

theorem matchP5_some_p4 {key cs : Str} {n : Nat} (hk : key ≠ [])
    (hkw : ∀ c ∈ key, isWord c = true) (h : matchP5 key cs = some n) :
    ∃ j, matchP4 key (List.drop j cs) = some (key.length + 1) := by
  have hlast : isWord (key.getLastD '/') = true :=
    hkw _ (getLastD_mem_of_ne_nil key '/' hk)
  simp only [matchP5] at h
  by_cases h1 : (6 ≤ runLen isCmCls cs &&
      strStarts ('c' :: 'm' :: []) (List.drop (runLen isCmCls cs) cs)) = true
  · rw [if_pos h1] at h
    by_cases h2 : 1 ≤ wsRun (List.drop (runLen isCmCls cs + 2) cs)
    · rw [if_pos h2] at h
      cases hkd : keyDoAt key (List.drop (wsRun (List.drop (runLen isCmCls cs + 2) cs))
          (List.drop (runLen isCmCls cs + 2) cs)) with
      | none => rw [hkd] at h; exact Option.noConfusion h
      | some d =>
        obtain ⟨rest, hv, hw⟩ := keyDoAt_some_shape hkd
        obtain ⟨r0, rest', hr, hws⟩ := wsRun_pos hw
        refine ⟨runLen isCmCls cs + 2 +
          wsRun (List.drop (runLen isCmCls cs + 2) cs), ?_⟩
        rw [← List.drop_drop]
        rw [hv, hr]
        apply matchP4_of_shape
        show (isWord (key.getLastD '/') != isWord r0) = true
        rw [hlast, isWord_eq_false_of_isWs hws]
        rfl
    · rw [if_neg h2] at h; exact Option.noConfusion h
  · rw [if_neg h1] at h; exact Option.noConfusion h

theorem noMatchP5_of_noMatchP4 {key s : Str} (hk : key ≠ [])
    (hkw : ∀ c ∈ key, isWord c = true)
    (h : NoMatch (matchP4 key) s) : NoMatch (matchP5 key) s := by
  intro i
  cases hm : matchP5 key (List.drop i s) with
  | none => rfl
  | some n =>
    exfalso
    obtain ⟨j, hj⟩ := matchP5_some_p4 hk hkw hm
    rw [List.drop_drop] at hj
    rw [h (i + j)] at hj
    exact Option.noConfusion hj

theorem matchQQ_not_q {c : Char} {cs : Str} (h : c ≠ 'q') : matchQQ (c :: cs) = none := by
  simp only [matchQQ, if_neg h]

theorem matchNL_not_nl {c : Char} {cs : Str} (h : c ≠ '\n') : matchNL (c :: cs) = none := by
  simp only [matchNL, if_neg h]

theorem noMatch_matchQQ_of_not_mem {s : Str} (h : 'q' ∉ s) : NoMatch matchQQ s := by
  intro i
  cases hd : List.drop i s with
  | nil => rfl
  | cons c cs =>
    apply matchQQ_not_q
    intro hc
    have hc' : c ∈ List.drop i s := by rw [hd]; exact List.mem_cons_self ..
    exact h (hc ▸ List.mem_of_mem_drop hc')

theorem noMatch_matchNL_of_not_mem {s : Str} (h : '\n' ∉ s) : NoMatch matchNL s := by
  intro i
  cases hd : List.drop i s with
  | nil => rfl
  | cons c cs =>
    apply matchNL_not_nl
    intro hc
    have hc' : c ∈ List.drop i s := by rw [hd]; exact List.mem_cons_self ..
    exact h (hc ▸ List.mem_of_mem_drop hc')

/-- C2 amended: for a non-empty identifier made of word characters and
a stream containing no `q` and no newline characters (so that the two
cleanup substitutions cannot fire and splice), the rewriter's output
contains no occurrence of `/<id>` followed by whitespace and `Do`.
Without that restriction a spliced occurrence can survive, as the
counterexample shows. -/
theorem strip_references_no_keydo (key s : Str) (hk : key ≠ [])
    (hkw : ∀ c ∈ key, isWord c = true) (hq : 'q' ∉ s) (hn : '\n' ∉ s) :
    ¬ HasKeyDo key (cleanContentStream [key] s) := by
  have hlast : isWord (key.getLastD '/') = true :=
    hkw _ (getLastD_mem_of_ne_nil key '/' hk)
  obtain ⟨t, hT⟩ : ∃ t, subDel (matchP4 key) (subDel (matchP3 key)
      (subDel (matchP2 key) (subDel (matchP1 key) s))) = t := ⟨_, rfl⟩
  have hT4 : NoMatch (matchP4 key) t := by
    rw [← hT]
    exact subDelP4_no_match key hk hkw _ _ le_rfl
  have hts : t <+ s := by
    rw [← hT]
    exact (((subDel_sublist _ _).trans (subDel_sublist _ _)).trans
      (subDel_sublist _ _)).trans (subDel_sublist _ _)
  have hq' : 'q' ∉ t := fun hmem => hq (hts.subset hmem)
  have hn' : '\n' ∉ t := fun hmem => hn (hts.subset hmem)
  have hP5 : subDel (matchP5 key) t = t :=
    subDel_id _ _ (noMatchP5_of_noMatchP4 hk hkw hT4)
  have hQQ : subDel matchQQ t = t := subDel_id _ _ (noMatch_matchQQ_of_not_mem hq')
  have hNL : subNL t = t := subNL_id _ (noMatch_matchNL_of_not_mem hn')
  have hclean : cleanContentStream [key] s = t := by
    rw [cleanContentStream_eq]
    show subNL (subDel matchQQ (List.foldl applyKey s [key])) = t
    rw [List.foldl_cons, List.foldl_nil, applyKey, hT, hP5, hQQ, hNL]
  rw [hclean]
  rintro ⟨pre, ws, post, hdecomp, hwne, hws⟩
  have hmatch : matchP4 key (List.drop pre.length t) = some (key.length + 1) := by
    rw [hdecomp, List.drop_left]
    cases ws with
    | nil => exact absurd rfl hwne
    | cons w0 ws' =>
      have hshape : '/' :: (key ++ (w0 :: ws') ++ ('D' :: 'o' :: post))
          = ('/' :: key) ++ ((w0 :: ws') ++ ('D' :: 'o' :: post)) := by
        simp [List.append_assoc]
      rw [hshape]
      apply matchP4_of_shape
      show (isWord (key.getLastD '/') != isWord w0) = true
      rw [hlast, isWord_eq_false_of_isWs (hws w0 (List.mem_cons_self ..))]
      rfl
  rw [hT4 pre.length] at hmatch
  exact Option.noConfusion hmatch

theorem strip_references_no_keydo_witness :
    ¬ HasKeyDo (("Im1").toList)
      (cleanContentStream [("Im1").toList] (("1 0 0 1 5 5 cm /Im1 Do x").toList)) :=
  strip_references_no_keydo (("Im1").toList) (("1 0 0 1 5 5 cm /Im1 Do x").toList)
    (by decide) (by decide) (by decide) (by decide)

/-! ### C1 amended: ordering of the image pass -/

/-- C1 amended: on every page the Content-Stream Rewriter is invoked
with the full candidate set computed from the pre-deletion Resource
Table, before any deletion: each output stream is the rewriter applied
to the original stream with the complete candidate key set, and the
output table is the original minus exactly the candidate keys.  The
second half of the original claim fails: a rewritten stream can still
contain a reference to a deleted identifier when a cleanup deletion
splices one together (see the counterexample). -/
theorem image_pass_cleans_before_delete (p : Page) (res : List (Str × XObj))
    (hres : p.xobjects = some res) (hne : candidateKeys res ≠ []) :
    (imagePassPage p).contents =
      p.contents.map (fun s => cleanContentStream (candidateKeys res) s) ∧
    (imagePassPage p).xobjects =
      some (res.filter (fun e => !(decide (e.1 ∈ candidateKeys res)))) := by
  have hie : (candidateKeys res).isEmpty = false := by
    cases h : candidateKeys res with
    | nil => exact absurd h hne
    | cons a l => rfl
  constructor
  · simp [imagePassPage, hres, hie]
  · simp [imagePassPage, hres]

theorem image_pass_cleans_before_delete_witness :
    (imagePassPage ⟨some [(("Im9").toList, ⟨some imageName, some 10, some 10⟩)],
        [("x").toList]⟩).contents =
      [("x").toList].map (fun s => cleanContentStream
        (candidateKeys [(("Im9").toList, ⟨some imageName, some 10, some 10⟩)]) s) ∧
    (imagePassPage ⟨some [(("Im9").toList, ⟨some imageName, some 10, some 10⟩)],
        [("x").toList]⟩).xobjects =
      some ([(("Im9").toList, (⟨some imageName, some 10, some 10⟩ : XObj))].filter
        (fun e => !(decide (e.1 ∈
          candidateKeys [(("Im9").toList, ⟨some imageName, some 10, some 10⟩)])))) :=
  image_pass_cleans_before_delete _ _ rfl (by decide)

end XsukaxRemover
